import Mathlib

set_option autoImplicit false

/-!
# Thought Ledger: shallow embedding of `src/mcp/linear-server.ts`

The Sequential Thinking server keeps a process-wide ledger:

* `thoughtHistory : ThoughtEntry[]` — append-only list of submitted entries;
* `branches : Record<string, ThoughtEntry[]>` — per-label branch sequences,
  held in a plain object literal.

`processThought` normalizes `totalThoughts`, appends to history, files the
entry under its branch when `input.branchId` is truthy (JS truthiness: `null`
and the empty string are falsy), and returns a progress summary whose
`branches` field is `Object.keys(branches)`.

The embedding translates that code together with the JavaScript object
semantics it runs under:

* `branches` is an insertion-ordered association list of own bindings with
  unique keys; `Object.keys` follows the ECMAScript ordinary-object key
  order — array-index keys (canonical decimal strings with numeric value
  `< 2^32 - 1`) first, in ascending numeric order, then the remaining string
  keys in insertion order.
* Property reads on the plain object go through the prototype chain: for a
  key with no own binding that names an `Object.prototype` member
  (`"toString"`, `"constructor"`, `"valueOf"`, ...), `branches[key]` yields
  the inherited member, which is truthy, so `!branches[key]` skips the
  creation branch and `branches[key].push(input)` throws a `TypeError` —
  after the history push.  The tool handler catches the throw and returns an
  error response instead of a summary.  `processThought` therefore returns
  `Except String ProgressSummary` beside the successor state.

The zod input schema (`sequentialthinking` tool registration) is modelled by
`validate` over already-typed fields: `z.number().int().min(1)` checks become
`1 ≤ _` bounds on `Int` fields, and `z.string()` on `thought` imposes no
constraint (the schema has no `.min(1)` on `thought`).
-/

/-- One submitted reasoning step, mirroring the TS `ThoughtEntry` interface.
`number | null` fields become `Option Int`, `string | null` becomes
`Option String`. -/
structure ThoughtEntry where
  thought : String
  thoughtNumber : Int
  totalThoughts : Int
  isRevision : Bool
  revisesThought : Option Int
  branchFromThought : Option Int
  branchId : Option String
  needsMoreThoughts : Bool
deriving Repr, DecidableEq

/-- The ledger state: the two module-level mutable variables of the server.
`branches` holds the plain object's own bindings as an insertion-ordered
association list with unique keys. -/
structure LedgerState where
  thoughtHistory : List ThoughtEntry
  branches : List (String × List ThoughtEntry)
deriving Repr, DecidableEq

/-- The record returned by `processThought` on success. -/
structure ProgressSummary where
  thoughtNumber : Int
  totalThoughts : Int
  nextThoughtNeeded : Bool
  branches : List String
  thoughtHistoryLength : Nat
deriving Repr, DecidableEq

/-- The object's own binding for `k` — first (unique) binding, `none` when
the key has never been assigned. -/
def recordGet (m : List (String × List ThoughtEntry)) (k : String) :
    Option (List ThoughtEntry) :=
  (m.find? (fun p => p.1 = k)).map (·.2)

/-- Assignment `branches[k] = v` — overwrite in place when the key exists (JS
keeps the original insertion position), otherwise add the binding at the end. -/
def recordSet (m : List (String × List ThoughtEntry)) (k : String)
    (v : List ThoughtEntry) : List (String × List ThoughtEntry) :=
  match m with
  | [] => [(k, v)]
  | (k', v') :: rest =>
      if k' = k then (k, v) :: rest else (k', v') :: recordSet rest k v

/-- JS truthiness of a `string | null` value: `null` and `""` are falsy. -/
def strTruthy : Option String → Bool
  | none => false
  | some s => !(s = "")

/-- The own property names of `Object.prototype` (ECMAScript plus the Annex
B accessors implemented by Node): reading any of these keys on a plain
object with no own binding yields a truthy inherited member. -/
def protoPropNames : List String :=
  ["constructor", "hasOwnProperty", "isPrototypeOf", "propertyIsEnumerable",
   "toLocaleString", "toString", "valueOf", "__defineGetter__",
   "__defineSetter__", "__lookupGetter__", "__lookupSetter__", "__proto__"]

/-- Whether a key collides with an inherited `Object.prototype` member. -/
def isProtoKey (s : String) : Bool :=
  protoPropNames.contains s

/-- Decimal value of a list of digit characters. -/
def digitsToNat (cs : List Char) : Nat :=
  cs.foldl (fun n c => n * 10 + (c.toNat - ('0').toNat)) 0

/-- Numeric value of a digit string (only applied to all-digit strings). -/
def strNatVal (s : String) : Nat :=
  digitsToNat s.data

/-- ECMAScript array-index key: the canonical decimal string of some
`n < 2^32 - 1` — nonempty, all digits, no leading zero unless it is `"0"`. -/
def isArrayIndexKey (s : String) : Bool :=
  match s.data with
  | [] => false
  | c :: cs =>
      (c :: cs).all Char.isDigit && (cs = [] || !(c = '0'))
        && digitsToNat (c :: cs) < 4294967295

/-- Insert a key into a list sorted by ascending numeric value. -/
def insertByVal (s : String) : List String → List String
  | [] => [s]
  | t :: ts =>
      if strNatVal s ≤ strNatVal t then s :: t :: ts else t :: insertByVal s ts

/-- Insertion sort by ascending numeric value. -/
def sortByVal : List String → List String
  | [] => []
  | s :: ss => insertByVal s (sortByVal ss)

/-- Model of `Object.keys` on an ordinary JS object: array-index keys in
ascending numeric order first, then the remaining own keys in insertion
order (inherited prototype members are never listed). -/
def objectKeys (m : List (String × List ThoughtEntry)) : List String :=
  sortByVal ((m.map Prod.fst).filter isArrayIndexKey)
    ++ (m.map Prod.fst).filter (fun k => !(isArrayIndexKey k))

/-- The normalization rule of `processThought`:
`if (input.thoughtNumber > input.totalThoughts) input.totalThoughts = input.thoughtNumber`. -/
def normalizeEntry (input : ThoughtEntry) : ThoughtEntry :=
  if input.thoughtNumber > input.totalThoughts then
    { input with totalThoughts := input.thoughtNumber }
  else input

/-- The branch-tracking block of `processThought`, with JS property-read
semantics.  `if (input.branchId)` is the truthiness guard; the read
`branches[input.branchId]` yields the own binding when one exists (truthy,
so creation is skipped and `push` appends), else the inherited
`Object.prototype` member for colliding keys (truthy, so creation is
skipped and `push` throws a `TypeError`), else `undefined` (falsy, so a
fresh array is assigned and then pushed to). -/
def branchUpdate (input : ThoughtEntry)
    (m : List (String × List ThoughtEntry)) :
    Except String (List (String × List ThoughtEntry)) :=
  if strTruthy input.branchId then
    match input.branchId with
    | some b =>
        match recordGet m b with
        | some l => Except.ok (recordSet m b (l ++ [input]))
        | none =>
            if isProtoKey b then
              Except.error "branches[input.branchId].push is not a function"
            else
              Except.ok (recordSet m b ([] ++ [input]))
    | none => Except.ok m
  else Except.ok m

/-- The `processThought` function translated from the TS source under JS
object semantics: normalize, push onto `thoughtHistory`, then run the
branch-tracking block — which either updates the branch map and lets the
summary be returned, or throws after the history push, in which case the
handler's `catch` produces the error result and the branch map is left as
it was. -/
def processThought (input : ThoughtEntry) (st : LedgerState) :
    Except String ProgressSummary × LedgerState :=
  let input := normalizeEntry input
  let history := st.thoughtHistory ++ [input]
  match branchUpdate input st.branches with
  | Except.ok branches =>
      (Except.ok
        { thoughtNumber := input.thoughtNumber
          totalThoughts := input.totalThoughts
          nextThoughtNeeded := input.needsMoreThoughts
          branches := objectKeys branches
          thoughtHistoryLength := history.length },
       { thoughtHistory := history, branches := branches })
  | Except.error msg =>
      (Except.error msg, { thoughtHistory := history, branches := st.branches })

/-- The ledger at process start: both module-level variables empty. -/
def emptyLedger : LedgerState := ⟨[], []⟩

/-- Run a sequence of submissions from a given state, collecting each
result (summary or error response) and the final state. -/
def runAll : List ThoughtEntry → LedgerState →
    List (Except String ProgressSummary) × LedgerState
  | [], st => ([], st)
  | e :: es, st =>
      let (s, st') := processThought e st
      let (ss, stF) := runAll es st'
      (s :: ss, stF)

/-- The state reached by a sequence of submissions from a given state. -/
def runFrom (st : LedgerState) (es : List ThoughtEntry) : LedgerState :=
  es.foldl (fun st e => (processThought e st).2) st

/-- The state reached by a sequence of submissions from the empty ledger. -/
def runEntries (es : List ThoughtEntry) : LedgerState :=
  runFrom emptyLedger es

/-- The typed payload the zod layer hands to the tool handler: optional
fields are `Option`s (`.optional()`), before the handler's defaulting. -/
structure RawInput where
  thought : String
  thoughtNumber : Int
  totalThoughts : Int
  nextThoughtNeeded : Bool
  isRevision : Option Bool
  revisesThought : Option Int
  branchFromThought : Option Int
  branchId : Option String
deriving Repr, DecidableEq

/-- The zod schema checks on already-typed fields: `z.number().int().min(1)`
on `thoughtNumber`, `totalThoughts` and the two optional references;
`z.string()` on `thought` and `branchId` accepts every string. -/
def validate (r : RawInput) : Bool :=
  (1 ≤ r.thoughtNumber) && (1 ≤ r.totalThoughts)
    && (match r.revisesThought with | some n => 1 ≤ n | none => true)
    && (match r.branchFromThought with | some n => 1 ≤ n | none => true)

/-- The handler's construction of the `ThoughtEntry` record:
`isRevision || false`, `revisesThought ?? null`, `branchId ?? null`, and the
rename `nextThoughtNeeded` → `needsMoreThoughts`. -/
def toEntry (r : RawInput) : ThoughtEntry :=
  { thought := r.thought
    thoughtNumber := r.thoughtNumber
    totalThoughts := r.totalThoughts
    isRevision := r.isRevision.getD false
    revisesThought := r.revisesThought
    branchFromThought := r.branchFromThought
    branchId := r.branchId
    needsMoreThoughts := r.nextThoughtNeeded }

/-- One submission through the validation boundary: a schema violation is
rejected before any mutation (the state is returned unchanged), otherwise
the entry is processed — which may still produce an error result when the
branch push throws. -/
def submit (r : RawInput) (st : LedgerState) :
    Except String ProgressSummary × LedgerState :=
  if validate r then processThought (toEntry r) st
  else (Except.error "validation error", st)

/-- The entries filed under a label: the own binding `branches[b]`, the
empty sequence when the label has no binding. -/
def branchEntries (st : LedgerState) (b : String) : List ThoughtEntry :=
  (recordGet st.branches b).getD []

/-! ## Concrete sample inputs used by witnesses and counterexamples -/

/-- A plain entry with a chosen number, total and branch label. -/
def sampleEntry (tn tt : Int) (bid : Option String) : ThoughtEntry :=
  { thought := "t", thoughtNumber := tn, totalThoughts := tt,
    isRevision := false, revisesThought := none, branchFromThought := none,
    branchId := bid, needsMoreThoughts := true }

/-- A raw submission whose `thought` is the empty string and whose other
fields satisfy every schema bound. -/
def emptyThoughtInput : RawInput :=
  { thought := "", thoughtNumber := 1, totalThoughts := 1,
    nextThoughtNeeded := true, isRevision := none, revisesThought := none,
    branchFromThought := none, branchId := none }

/-- A structurally valid raw submission whose `branchId` collides with the
inherited `Object.prototype.toString` member. -/
def toStringInput : RawInput :=
  { thought := "t", thoughtNumber := 1, totalThoughts := 1,
    nextThoughtNeeded := true, isRevision := none, revisesThought := none,
    branchFromThought := none, branchId := some "toString" }

/-- The prototype-colliding submission with `thoughtNumber` exceeding its
declared total. -/
def toStringFiveOfThree : RawInput :=
  { thought := "t", thoughtNumber := 5, totalThoughts := 3,
    nextThoughtNeeded := true, isRevision := none, revisesThought := none,
    branchFromThought := none, branchId := some "toString" }

/-- The first scenario submission: `step1`, `1` of `3`, more needed. -/
def scenario1 : RawInput :=
  { thought := "step1", thoughtNumber := 1, totalThoughts := 3,
    nextThoughtNeeded := true, isRevision := none, revisesThought := none,
    branchFromThought := none, branchId := none }

/-- The second scenario submission: `step2-alt` on branch `alt`. -/
def scenario2 : RawInput :=
  { thought := "step2-alt", thoughtNumber := 2, totalThoughts := 3,
    nextThoughtNeeded := true, isRevision := none, revisesThought := none,
    branchFromThought := none, branchId := some "alt" }

/-- The third scenario submission: `step4`, number `4` of a declared `3`. -/
def scenario4 : RawInput :=
  { thought := "step4", thoughtNumber := 4, totalThoughts := 3,
    nextThoughtNeeded := false, isRevision := none, revisesThought := none,
    branchFromThought := none, branchId := none }

/-- Fold step for the spec's notion of labels "in order of first
appearance": record a label the first time a submission actually creates it
— its label is truthy (non-empty) and, not colliding with an inherited
`Object.prototype` member, the creation branch actually runs. -/
def useLabel (acc : List String) (e : ThoughtEntry) : List String :=
  match e.branchId with
  | some b =>
      if b ≠ "" ∧ isProtoKey b = false ∧ b ∉ acc then acc ++ [b] else acc
  | none => acc

/-- The branch labels ever created, each once, in order of first creation. -/
def firstUseLabels (es : List ThoughtEntry) : List String :=
  es.foldl useLabel []

/-! ## Helper lemmas about the association-list record operations -/

theorem recordGet_recordSet_self (m : List (String × List ThoughtEntry))
    (k : String) (v : List ThoughtEntry) :
    recordGet (recordSet m k v) k = some v := by
  induction m with
  | nil => simp [recordSet, recordGet, List.find?]
  | cons p rest ih =>
      obtain ⟨k', v'⟩ := p
      by_cases h : k' = k
      · simp [recordSet, recordGet, h, List.find?]
      · simpa [recordSet, recordGet, h, List.find?] using ih

theorem recordGet_recordSet_ne (m : List (String × List ThoughtEntry))
    (k k' : String) (v : List ThoughtEntry) (h : k' ≠ k) :
    recordGet (recordSet m k v) k' = recordGet m k' := by
  induction m with
  | nil => simp [recordSet, recordGet, List.find?, Ne.symm h]
  | cons p rest ih =>
      obtain ⟨k₀, v₀⟩ := p
      by_cases hk : k₀ = k
      · subst hk
        simp [recordSet, recordGet, List.find?, Ne.symm h]
      · by_cases hk' : k₀ = k'
        · subst hk'
          simp [recordSet, recordGet, hk, List.find?]
        · simpa [recordSet, recordGet, hk, hk', List.find?] using ih

theorem mem_recordSet (m : List (String × List ThoughtEntry))
    (k : String) (v : List ThoughtEntry) (p : String × List ThoughtEntry)
    (hp : p ∈ recordSet m k v) : p = (k, v) ∨ p ∈ m := by
  induction m with
  | nil => simpa [recordSet] using hp
  | cons q rest ih =>
      obtain ⟨k₀, v₀⟩ := q
      by_cases hk : k₀ = k
      · simp only [recordSet, if_pos hk, List.mem_cons] at hp
        rcases hp with h | h
        · exact Or.inl h
        · exact Or.inr (List.mem_cons_of_mem _ h)
      · simp only [recordSet, if_neg hk, List.mem_cons] at hp
        rcases hp with h | h
        · exact Or.inr (by simp [h])
        · rcases ih h with h' | h'
          · exact Or.inl h'
          · exact Or.inr (List.mem_cons_of_mem _ h')

theorem recordGet_eq_some_mem (m : List (String × List ThoughtEntry))
    (k : String) (v : List ThoughtEntry) (h : recordGet m k = some v) :
    (k, v) ∈ m := by
  induction m with
  | nil => simp [recordGet, List.find?] at h
  | cons p rest ih =>
      obtain ⟨k₀, v₀⟩ := p
      by_cases hk : k₀ = k
      · subst hk
        have hv : v₀ = v := by simpa [recordGet, List.find?] using h
        simp [hv]
      · have h' : recordGet rest k = some v := by
          simpa [recordGet, List.find?, hk] using h
        exact List.mem_cons_of_mem _ (ih h')

theorem mem_map_fst_of_recordGet (m : List (String × List ThoughtEntry))
    (k : String) (v : List ThoughtEntry) (h : recordGet m k = some v) :
    k ∈ m.map Prod.fst :=
  List.mem_map_of_mem Prod.fst (recordGet_eq_some_mem m k v h)

theorem recordGet_eq_none_iff (m : List (String × List ThoughtEntry))
    (k : String) : recordGet m k = none ↔ k ∉ m.map Prod.fst := by
  induction m with
  | nil => simp [recordGet, List.find?]
  | cons p rest ih =>
      obtain ⟨k₀, v₀⟩ := p
      by_cases hk : k₀ = k
      · subst hk
        simp [recordGet, List.find?]
      · simpa [recordGet, List.find?, hk, Ne.symm hk] using ih

theorem map_fst_recordSet_mem (m : List (String × List ThoughtEntry))
    (k : String) (v : List ThoughtEntry) (h : k ∈ m.map Prod.fst) :
    (recordSet m k v).map Prod.fst = m.map Prod.fst := by
  induction m with
  | nil => simp at h
  | cons p rest ih =>
      obtain ⟨k₀, v₀⟩ := p
      by_cases hk : k₀ = k
      · simp [recordSet, hk]
      · have h' : k ∈ rest.map Prod.fst := by
          simpa [hk, Ne.symm hk] using h
        simp [recordSet, hk, ih h']

theorem map_fst_recordSet_not_mem (m : List (String × List ThoughtEntry))
    (k : String) (v : List ThoughtEntry) (h : k ∉ m.map Prod.fst) :
    (recordSet m k v).map Prod.fst = m.map Prod.fst ++ [k] := by
  induction m with
  | nil => simp [recordSet]
  | cons p rest ih =>
      obtain ⟨k₀, v₀⟩ := p
      have hk : k₀ ≠ k := by
        intro hkk
        exact h (by simp [hkk])
      have h' : k ∉ rest.map Prod.fst := fun hm => h (by simp [hm])
      simp [recordSet, hk, ih h']

/-! ## Helper lemmas about normalization and the branch block -/

theorem normalizeEntry_branchId (e : ThoughtEntry) :
    (normalizeEntry e).branchId = e.branchId := by
  unfold normalizeEntry
  split <;> rfl

theorem normalizeEntry_thoughtNumber (e : ThoughtEntry) :
    (normalizeEntry e).thoughtNumber = e.thoughtNumber := by
  unfold normalizeEntry
  split <;> rfl

theorem normalizeEntry_le (e : ThoughtEntry) :
    (normalizeEntry e).thoughtNumber ≤ (normalizeEntry e).totalThoughts := by
  by_cases h : e.thoughtNumber > e.totalThoughts
  · simp only [normalizeEntry, if_pos h]
    exact le_refl e.thoughtNumber
  · simp only [normalizeEntry, if_neg h]
    exact not_lt.mp h

theorem branchUpdate_none (input : ThoughtEntry)
    (m : List (String × List ThoughtEntry)) (h : input.branchId = none) :
    branchUpdate input m = Except.ok m := by
  simp [branchUpdate, strTruthy, h]

theorem branchUpdate_empty (input : ThoughtEntry)
    (m : List (String × List ThoughtEntry)) (h : input.branchId = some "") :
    branchUpdate input m = Except.ok m := by
  simp [branchUpdate, strTruthy, h]

theorem branchUpdate_existing (input : ThoughtEntry)
    (m : List (String × List ThoughtEntry)) (b : String)
    (l : List ThoughtEntry) (hb : input.branchId = some b) (hne : b ≠ "")
    (hl : recordGet m b = some l) :
    branchUpdate input m = Except.ok (recordSet m b (l ++ [input])) := by
  simp [branchUpdate, strTruthy, hb, hne, hl]

theorem branchUpdate_new (input : ThoughtEntry)
    (m : List (String × List ThoughtEntry)) (b : String)
    (hb : input.branchId = some b) (hne : b ≠ "")
    (hl : recordGet m b = none) (hp : isProtoKey b = false) :
    branchUpdate input m = Except.ok (recordSet m b ([] ++ [input])) := by
  simp [branchUpdate, strTruthy, hb, hne, hl, hp]

theorem branchUpdate_proto (input : ThoughtEntry)
    (m : List (String × List ThoughtEntry)) (b : String)
    (hb : input.branchId = some b) (hne : b ≠ "")
    (hl : recordGet m b = none) (hp : isProtoKey b = true) :
    branchUpdate input m
      = Except.error "branches[input.branchId].push is not a function" := by
  simp [branchUpdate, strTruthy, hb, hne, hl, hp]

/-! ## Helper lemmas about `processThought` -/

theorem processThought_snd_thoughtHistory (e : ThoughtEntry) (st : LedgerState) :
    (processThought e st).2.thoughtHistory = st.thoughtHistory ++ [normalizeEntry e] := by
  unfold processThought
  cases h : branchUpdate (normalizeEntry e) st.branches <;> simp [h]

theorem processThought_snd_branches_ok (e : ThoughtEntry) (st : LedgerState)
    (m' : List (String × List ThoughtEntry))
    (h : branchUpdate (normalizeEntry e) st.branches = Except.ok m') :
    (processThought e st).2.branches = m' := by
  unfold processThought
  simp [h]

theorem processThought_error_of_branchUpdate (e : ThoughtEntry)
    (st : LedgerState) (msg : String)
    (h : branchUpdate (normalizeEntry e) st.branches = Except.error msg) :
    (processThought e st).1 = Except.error msg
      ∧ (processThought e st).2.branches = st.branches := by
  unfold processThought
  simp [h]

theorem processThought_ok_spec (e : ThoughtEntry) (st : LedgerState)
    (s : ProgressSummary) (h : (processThought e st).1 = Except.ok s) :
    s.thoughtNumber = (normalizeEntry e).thoughtNumber
      ∧ s.totalThoughts = (normalizeEntry e).totalThoughts
      ∧ s.nextThoughtNeeded = (normalizeEntry e).needsMoreThoughts
      ∧ s.branches = objectKeys (processThought e st).2.branches
      ∧ s.thoughtHistoryLength = st.thoughtHistory.length + 1 := by
  cases hbu : branchUpdate (normalizeEntry e) st.branches with
  | ok m' =>
      have hh : (processThought e st).1 = Except.ok
          { thoughtNumber := (normalizeEntry e).thoughtNumber
            totalThoughts := (normalizeEntry e).totalThoughts
            nextThoughtNeeded := (normalizeEntry e).needsMoreThoughts
            branches := objectKeys m'
            thoughtHistoryLength := st.thoughtHistory.length + 1 } := by
        unfold processThought
        simp [hbu]
      rw [hh] at h
      simp only [Except.ok.injEq] at h
      subst h
      rw [processThought_snd_branches_ok e st m' hbu]
      simp
  | error msg =>
      have hh : (processThought e st).1 = Except.error msg := by
        unfold processThought
        simp [hbu]
      rw [hh] at h
      simp at h

theorem processThought_branches_none (e : ThoughtEntry) (st : LedgerState)
    (h : e.branchId = none) : (processThought e st).2.branches = st.branches :=
  processThought_snd_branches_ok e st st.branches
    (branchUpdate_none _ _ (by rw [normalizeEntry_branchId, h]))

theorem processThought_branches_empty (e : ThoughtEntry) (st : LedgerState)
    (h : e.branchId = some "") : (processThought e st).2.branches = st.branches :=
  processThought_snd_branches_ok e st st.branches
    (branchUpdate_empty _ _ (by rw [normalizeEntry_branchId, h]))

theorem processThought_branches_existing (e : ThoughtEntry) (st : LedgerState)
    (b : String) (l : List ThoughtEntry) (h : e.branchId = some b)
    (hne : b ≠ "") (hl : recordGet st.branches b = some l) :
    (processThought e st).2.branches
      = recordSet st.branches b (l ++ [normalizeEntry e]) :=
  processThought_snd_branches_ok e st _
    (branchUpdate_existing _ _ b l (by rw [normalizeEntry_branchId, h]) hne hl)

theorem processThought_branches_new (e : ThoughtEntry) (st : LedgerState)
    (b : String) (h : e.branchId = some b) (hne : b ≠ "")
    (hl : recordGet st.branches b = none) (hp : isProtoKey b = false) :
    (processThought e st).2.branches
      = recordSet st.branches b ([] ++ [normalizeEntry e]) :=
  processThought_snd_branches_ok e st _
    (branchUpdate_new _ _ b (by rw [normalizeEntry_branchId, h]) hne hl hp)

theorem processThought_branches_proto (e : ThoughtEntry) (st : LedgerState)
    (b : String) (h : e.branchId = some b) (hne : b ≠ "")
    (hl : recordGet st.branches b = none) (hp : isProtoKey b = true) :
    (processThought e st).1
        = Except.error "branches[input.branchId].push is not a function"
      ∧ (processThought e st).2.branches = st.branches :=
  processThought_error_of_branchUpdate e st _
    (branchUpdate_proto _ _ b (by rw [normalizeEntry_branchId, h]) hne hl hp)

theorem runFrom_cons (st : LedgerState) (e : ThoughtEntry) (es : List ThoughtEntry) :
    runFrom st (e :: es) = runFrom (processThought e st).2 es := rfl

theorem runFrom_append_singleton (st : LedgerState) (es : List ThoughtEntry)
    (e : ThoughtEntry) :
    runFrom st (es ++ [e]) = (processThought e (runFrom st es)).2 := by
  simp [runFrom, List.foldl_append]

theorem normalizeEntry_totalThoughts (e : ThoughtEntry) :
    (normalizeEntry e).totalThoughts
      = if e.thoughtNumber > e.totalThoughts then e.thoughtNumber
        else e.totalThoughts := by
  unfold normalizeEntry
  split <;> rfl

theorem processThought_ok_of_branchUpdate (e : ThoughtEntry) (st : LedgerState)
    (m' : List (String × List ThoughtEntry))
    (h : branchUpdate (normalizeEntry e) st.branches = Except.ok m') :
    ∃ s, (processThought e st).1 = Except.ok s := by
  unfold processThought
  simp [h]

theorem isProtoKey_ne_empty (b : String) (h : isProtoKey b = true) : b ≠ "" := by
  intro hb
  rw [hb] at h
  exact absurd h (by decide)

/-! ## C1 — normalization before storage -/

/-- C1 counterexample: a structurally valid submission with `thoughtNumber`
`5` of a declared `3` and `branchId = "toString"` stores the normalized
entry but returns an error, not a summary — so the claim's statement about
the returned summary's fields has no returned summary to hold of. -/
theorem c1_counterexample :
    validate toStringFiveOfThree = true
      ∧ (submit toStringFiveOfThree emptyLedger).1
          = Except.error "branches[input.branchId].push is not a function"
      ∧ (submit toStringFiveOfThree emptyLedger).2.thoughtHistory
          = [normalizeEntry (toEntry toStringFiveOfThree)] :=
  ⟨rfl, rfl, rfl⟩

/-- C1 amended: normalization is applied before storage for every submitted
entry — the stored entry carries `totalThoughts = thoughtNumber` when the
input exceeded its total, and the input unchanged otherwise — and whenever
a summary is returned (the branch push may throw instead, after storage),
its `totalThoughts` is the normalized value and its `thoughtNumber` the
input's. -/
theorem c1_normalization (e : ThoughtEntry) (st : LedgerState) :
    (e.thoughtNumber > e.totalThoughts →
        (processThought e st).2.thoughtHistory
          = st.thoughtHistory ++ [{ e with totalThoughts := e.thoughtNumber }])
      ∧ (¬ e.thoughtNumber > e.totalThoughts →
          (processThought e st).2.thoughtHistory = st.thoughtHistory ++ [e])
      ∧ ∀ s, (processThought e st).1 = Except.ok s →
          (e.thoughtNumber > e.totalThoughts → s.totalThoughts = e.thoughtNumber)
            ∧ (¬ e.thoughtNumber > e.totalThoughts →
                s.totalThoughts = e.totalThoughts)
            ∧ s.thoughtNumber = e.thoughtNumber := by
  refine ⟨fun h => ?_, fun h => ?_, fun s hs => ?_⟩
  · rw [processThought_snd_thoughtHistory]
    simp [normalizeEntry, h]
  · rw [processThought_snd_thoughtHistory]
    simp [normalizeEntry, h]
  · have hspec := processThought_ok_spec e st s hs
    refine ⟨fun h => ?_, fun h => ?_, ?_⟩
    · rw [hspec.2.1, normalizeEntry_totalThoughts, if_pos h]
    · rw [hspec.2.1, normalizeEntry_totalThoughts, if_neg h]
    · rw [hspec.1, normalizeEntry_thoughtNumber]

/-- Witness for C1 at the spec's own example: `5` of `3`, unlabeled, on the
empty ledger — stored normalized, and the returned summary (which exists,
`rfl`) carries `totalThoughts = 5` and `thoughtNumber = 5`. -/
theorem c1_normalization_witness :
    (processThought (sampleEntry 5 3 none) emptyLedger).2.thoughtHistory
        = emptyLedger.thoughtHistory ++ [{ sampleEntry 5 3 none with totalThoughts := 5 }]
      ∧ (⟨5, 5, true, [], 1⟩ : ProgressSummary).totalThoughts = 5
      ∧ (⟨5, 5, true, [], 1⟩ : ProgressSummary).thoughtNumber = 5 := by
  have h := c1_normalization (sampleEntry 5 3 none) emptyLedger
  have h3 := h.2.2 ⟨5, 5, true, [], 1⟩ (by rfl)
  exact ⟨h.1 (by decide), h3.1 (by decide), h3.2.2⟩

/-! ## C2 — growth of the history and the reported length -/

/-- C2 counterexample: the first submission of a run can return an error
carrying no `thoughtHistoryLength` at all — a schema-valid entry labeled
`"toString"` — while still growing the history, so "the Nth submission
returns `thoughtHistoryLength = N`" fails on the code. -/
theorem c2_counterexample :
    (runAll [sampleEntry 1 1 (some "toString")] emptyLedger).1
        = [Except.error "branches[input.branchId].push is not a function"]
      ∧ (runEntries [sampleEntry 1 1 (some "toString")]).thoughtHistory.length = 1 :=
  ⟨rfl, rfl⟩

theorem runFrom_history_length (es : List ThoughtEntry) :
    ∀ st : LedgerState,
      (runFrom st es).thoughtHistory.length = st.thoughtHistory.length + es.length := by
  induction es with
  | nil => intro st; simp [runFrom]
  | cons e es ih =>
      intro st
      rw [runFrom_cons, ih, processThought_snd_thoughtHistory]
      simp
      omega

theorem runAll_get_ok (es : List ThoughtEntry) :
    ∀ (st : LedgerState) (i : Nat) (s : ProgressSummary),
      (runAll es st).1.get? i = some (Except.ok s) →
      s.thoughtHistoryLength = st.thoughtHistory.length + i + 1 := by
  induction es with
  | nil => intro st i s h; simp [runAll] at h
  | cons e es ih =>
      intro st i s h
      rw [show runAll (e :: es) st
          = ((processThought e st).1 :: (runAll es (processThought e st).2).1,
             (runAll es (processThought e st).2).2) from rfl] at h
      cases i with
      | zero =>
          simp only [List.get?_cons_zero, Option.some.injEq] at h
          have := (processThought_ok_spec e st s h).2.2.2.2
          omega
      | succ i =>
          simp only [List.get?_cons_succ] at h
          have hlen : (processThought e st).2.thoughtHistory.length
              = st.thoughtHistory.length + 1 := by
            rw [processThought_snd_thoughtHistory]
            simp
          have := ih (processThought e st).2 i s h
          omega

/-- C2 amended: every submission — including those whose branch push throws
— appends exactly one entry to the history, so after N submissions the
history has length N; and every submission that does return a summary
reports the post-append length, so the Nth submission returns
`thoughtHistoryLength = N` whenever it returns at all. -/
theorem c2_monotonic_growth (es : List ThoughtEntry) :
    (runEntries es).thoughtHistory.length = es.length
      ∧ (∀ (i : Nat) (s : ProgressSummary),
          (runAll es emptyLedger).1.get? i = some (Except.ok s) →
          s.thoughtHistoryLength = i + 1)
      ∧ ∀ (e : ThoughtEntry) (st : LedgerState),
          (processThought e st).2.thoughtHistory
              = st.thoughtHistory ++ [normalizeEntry e]
            ∧ ∀ s, (processThought e st).1 = Except.ok s →
                s.thoughtHistoryLength
                  = (processThought e st).2.thoughtHistory.length := by
  refine ⟨?_, fun i s h => ?_, fun e st => ⟨processThought_snd_thoughtHistory e st, fun s hs => ?_⟩⟩
  · rw [runEntries, runFrom_history_length]
    simp [emptyLedger]
  · have := runAll_get_ok es emptyLedger i s h
    simpa [emptyLedger] using this
  · rw [(processThought_ok_spec e st s hs).2.2.2.2, processThought_snd_thoughtHistory]
    simp

/-- Witness for C2: in the two-step unlabeled run, the second returned
summary reports length `2`. -/
theorem c2_monotonic_growth_witness :
    (⟨2, 2, true, [], 2⟩ : ProgressSummary).thoughtHistoryLength = 1 + 1 :=
  (c2_monotonic_growth [sampleEntry 1 1 none, sampleEntry 2 2 none]).2.1 1
    ⟨2, 2, true, [], 2⟩ (by rfl)

/-! ## C3 — the empty-string `thought` is in fact accepted -/

/-- C3 counterexample: a submission whose `thought` is the empty string (and
whose other fields are in range) is not rejected — it passes the schema
(`z.string()` has no minimum length), is processed, and mutates the ledger:
the history is no longer empty afterwards. -/
theorem c3_counterexample :
    validate emptyThoughtInput = true
      ∧ (submit emptyThoughtInput emptyLedger).1
          = Except.ok ⟨1, 1, true, [], 1⟩
      ∧ (submit emptyThoughtInput emptyLedger).2 ≠ emptyLedger := by
  refine ⟨rfl, rfl, ?_⟩
  intro h
  have hlen : (submit emptyThoughtInput emptyLedger).2.thoughtHistory.length = 1 := rfl
  rw [h] at hlen
  simp [emptyLedger] at hlen

/-- C3 amended: a submission whose `thought` is the empty string but whose
numeric fields satisfy their minima passes validation — the schema imposes
no non-emptiness check on `thought` — and appends one entry to the history
(when it carries no `branchId` it returns a summary; a prototype-colliding
label could still make the branch push throw, after the append); any
submission the schema does reject fails before mutation, leaving the
ledger unchanged. -/
theorem c3_empty_thought_accepted (r : RawInput) (st : LedgerState) :
    (r.thought = "" → 1 ≤ r.thoughtNumber → 1 ≤ r.totalThoughts →
        (∀ n, r.revisesThought = some n → 1 ≤ n) →
        (∀ n, r.branchFromThought = some n → 1 ≤ n) →
        validate r = true
          ∧ (submit r st).2.thoughtHistory
              = st.thoughtHistory ++ [normalizeEntry (toEntry r)]
          ∧ (r.branchId = none → ∃ s, (submit r st).1 = Except.ok s))
      ∧ (validate r = false →
          (submit r st).1 = Except.error "validation error"
            ∧ (submit r st).2 = st) := by
  constructor
  · intro _ h1 h2 h3 h4
    have hv : validate r = true := by
      unfold validate
      simp only [Bool.and_eq_true, decide_eq_true_eq]
      refine ⟨⟨⟨h1, h2⟩, ?_⟩, ?_⟩
      · cases hr : r.revisesThought with
        | none => simp
        | some n => simpa using h3 n hr
      · cases hb : r.branchFromThought with
        | none => simp
        | some n => simpa using h4 n hb
    have hsub : submit r st = processThought (toEntry r) st := by
      simp [submit, hv]
    refine ⟨hv, ?_, ?_⟩
    · rw [hsub, processThought_snd_thoughtHistory]
    · intro hb
      rw [hsub]
      exact processThought_ok_of_branchUpdate (toEntry r) st st.branches
        (branchUpdate_none _ _ (by rw [normalizeEntry_branchId]; simp [toEntry, hb]))
  · intro hv
    simp [submit, hv]

/-- Witness for the amended C3: the concrete empty-`thought` submission
passes validation on the empty ledger, stores its entry, and returns a
summary. -/
theorem c3_empty_thought_accepted_witness :
    validate emptyThoughtInput = true
      ∧ (submit emptyThoughtInput emptyLedger).2.thoughtHistory
          = [normalizeEntry (toEntry emptyThoughtInput)]
      ∧ ∃ s, (submit emptyThoughtInput emptyLedger).1 = Except.ok s := by
  have h := (c3_empty_thought_accepted emptyThoughtInput emptyLedger).1
    rfl (by decide) (by decide)
    (fun n hn => by simp [emptyThoughtInput] at hn)
    (fun n hn => by simp [emptyThoughtInput] at hn)
  exact ⟨h.1, h.2.1.trans (by rfl), h.2.2 rfl⟩

/-! ## C4 — a structurally valid submission can error -/

/-- C4: the claim (and §4.1 of the spec) says no error is raised for any
structurally valid input, and that semantically inconsistent references are
the deliberate extent of permissiveness.  The code breaks this intent: the
schema-valid `branchId = "toString"` finds the truthy inherited
`Object.prototype.toString` under `if (!branches[input.branchId])`, skips
creation, and `branches[input.branchId].push` throws a `TypeError`, so the
server returns an error response, not a `ProgressSummary` — after having
pushed the entry to the history. -/
theorem c4_proto_key_error :
    validate toStringInput = true
      ∧ (submit toStringInput emptyLedger).1
          = Except.error "branches[input.branchId].push is not a function"
      ∧ (submit toStringInput emptyLedger).2.thoughtHistory
          = [normalizeEntry (toEntry toStringInput)]
      ∧ (submit toStringInput emptyLedger).2.branches = [] :=
  ⟨rfl, rfl, rfl, rfl⟩

/-! ## C5 — which labels create a branch -/

/-- C5 counterexample: a submission carrying `branchId` present as the empty
string creates no sequence for that label — `if (input.branchId)` is false
for `""` — so the branch map stays empty and no binding exists for `""`. -/
theorem c5_counterexample :
    (sampleEntry 1 1 (some "")).branchId = some ""
      ∧ (processThought (sampleEntry 1 1 (some "")) emptyLedger).2.branches = []
      ∧ recordGet
          (processThought (sampleEntry 1 1 (some "")) emptyLedger).2.branches ""
          = none := ⟨rfl, rfl, rfl⟩

/-- C5 amended: for every submission whose `branchId` is present, non-empty
and not an `Object.prototype` property name, `processThought` ensures a
sequence exists for that label (creating it on first use) and appends the
normalized entry to it; for submissions without `branchId` — or with the
falsy empty string — the branch map is untouched; and for a
prototype-colliding label with no existing binding nothing is created: the
truthy inherited member makes the code skip creation and throw on the push,
returning an error. -/
theorem c5_branch_append (e : ThoughtEntry) (st : LedgerState) :
    (∀ b, e.branchId = some b → b ≠ "" → isProtoKey b = false →
        recordGet (processThought e st).2.branches b
          = some ((recordGet st.branches b).getD [] ++ [normalizeEntry e]))
      ∧ (e.branchId = none ∨ e.branchId = some "" →
          (processThought e st).2.branches = st.branches)
      ∧ (∀ b, e.branchId = some b → isProtoKey b = true →
          recordGet st.branches b = none →
          (processThought e st).2.branches = st.branches
            ∧ (processThought e st).1
                = Except.error "branches[input.branchId].push is not a function") := by
  refine ⟨fun b hb hne hp => ?_, fun hb => ?_, fun b hb hp hl => ?_⟩
  · cases hl : recordGet st.branches b with
    | some l =>
        rw [processThought_branches_existing e st b l hb hne hl,
          recordGet_recordSet_self]
        simp [hl]
    | none =>
        rw [processThought_branches_new e st b hb hne hl hp,
          recordGet_recordSet_self]
        simp [hl]
  · rcases hb with hb | hb
    · exact processThought_branches_none e st hb
    · exact processThought_branches_empty e st hb
  · have h := processThought_branches_proto e st b hb (isProtoKey_ne_empty b hp) hl hp
    exact ⟨h.2, h.1⟩

/-- Witness for the amended C5: submitting one entry labeled `"a"` on the
empty ledger creates the branch `"a"` holding exactly that entry. -/
theorem c5_branch_append_witness :
    recordGet
        (processThought (sampleEntry 1 1 (some "a")) emptyLedger).2.branches "a"
      = some [normalizeEntry (sampleEntry 1 1 (some "a"))] := by
  have h := (c5_branch_append (sampleEntry 1 1 (some "a")) emptyLedger).1
    "a" rfl (by decide) (by decide)
  exact h.trans (by rfl)

/-! ## C9 — the end-to-end scenario -/

/-- C9: the spec's end-to-end scenario, starting from the fresh empty
ledger: the three submissions return, in order, the three expected progress
summaries (the third showing the normalized `totalThoughts = 4`). -/
theorem c9_end_to_end :
    (submit scenario1 emptyLedger).1 = Except.ok ⟨1, 3, true, [], 1⟩
      ∧ (submit scenario2 (submit scenario1 emptyLedger).2).1
          = Except.ok ⟨2, 3, true, ["alt"], 2⟩
      ∧ (submit scenario4
            (submit scenario2 (submit scenario1 emptyLedger).2).2).1
          = Except.ok ⟨4, 4, false, ["alt"], 3⟩ := ⟨rfl, rfl, rfl⟩

/-! ## C6 — branch entries are history entries -/

/-- Preservation: one step of `processThought` keeps every branch entry
inside the history, on the success paths (which alone touch the branch map)
and on the error path (which leaves it unchanged). -/
theorem branches_sub_history_step (e : ThoughtEntry) (st : LedgerState)
    (h : ∀ p ∈ st.branches, ∀ x ∈ p.2, x ∈ st.thoughtHistory) :
    ∀ p ∈ (processThought e st).2.branches, ∀ x ∈ p.2,
      x ∈ (processThought e st).2.thoughtHistory := by
  intro p hp x hx
  rw [processThought_snd_thoughtHistory]
  cases hbe : e.branchId with
  | none =>
      rw [processThought_branches_none e st hbe] at hp
      exact List.mem_append_left _ (h p hp x hx)
  | some b =>
      by_cases h0 : b = ""
      · subst h0
        rw [processThought_branches_empty e st hbe] at hp
        exact List.mem_append_left _ (h p hp x hx)
      · cases hl : recordGet st.branches b with
        | some l =>
            rw [processThought_branches_existing e st b l hbe h0 hl] at hp
            rcases mem_recordSet _ _ _ _ hp with h1 | h1
            · subst h1
              rcases List.mem_append.1 hx with h2 | h2
              · exact List.mem_append_left _
                  (h (b, l) (recordGet_eq_some_mem _ _ _ hl) x h2)
              · simp only [List.mem_singleton] at h2
                subst h2
                exact List.mem_append_right _ (List.mem_singleton_self _)
            · exact List.mem_append_left _ (h p h1 x hx)
        | none =>
            by_cases hpk : isProtoKey b
            · rw [(processThought_branches_proto e st b hbe h0 hl hpk).2] at hp
              exact List.mem_append_left _ (h p hp x hx)
            · rw [processThought_branches_new e st b hbe h0 hl
                (by simpa using hpk)] at hp
              rcases mem_recordSet _ _ _ _ hp with h1 | h1
              · subst h1
                simp only [List.nil_append, List.mem_singleton] at hx
                subst hx
                exact List.mem_append_right _ (List.mem_singleton_self _)
              · exact List.mem_append_left _ (h p h1 x hx)

/-- The branch-containment invariant holds along any run. -/
theorem branches_sub_history_runFrom (es : List ThoughtEntry) :
    ∀ st : LedgerState,
      (∀ p ∈ st.branches, ∀ x ∈ p.2, x ∈ st.thoughtHistory) →
      ∀ p ∈ (runFrom st es).branches, ∀ x ∈ p.2, x ∈ (runFrom st es).thoughtHistory := by
  induction es with
  | nil => intro st h; exact h
  | cons e es ih =>
      intro st h
      rw [runFrom_cons]
      exact ih _ (branches_sub_history_step e st h)

/-- C6: in every ledger state reachable from the empty ledger, every entry
present in some branch sequence is also present in the history. -/
theorem c6_branches_in_history (es : List ThoughtEntry) :
    ∀ p ∈ (runEntries es).branches, ∀ x ∈ p.2,
      x ∈ (runEntries es).thoughtHistory :=
  branches_sub_history_runFrom es emptyLedger (by intro p hp; simp [emptyLedger] at hp)

/-- Witness for C6: after one labeled submission, the entry filed under
branch `"a"` is indeed in the history. -/
theorem c6_branches_in_history_witness :
    normalizeEntry (sampleEntry 1 1 (some "a"))
      ∈ (runEntries [sampleEntry 1 1 (some "a")]).thoughtHistory :=
  c6_branches_in_history [sampleEntry 1 1 (some "a")]
    ("a", [normalizeEntry (sampleEntry 1 1 (some "a"))]) (by decide)
    (normalizeEntry (sampleEntry 1 1 (some "a"))) (by decide)

/-! ## C7 — stored totals dominate stored numbers -/

/-- C7: in every ledger state reachable from the empty ledger, every stored
entry has `totalThoughts` at least its own `thoughtNumber`. -/
theorem c7_totals_dominate (es : List ThoughtEntry) :
    ∀ x ∈ (runEntries es).thoughtHistory, x.thoughtNumber ≤ x.totalThoughts := by
  have key : ∀ (es : List ThoughtEntry) (st : LedgerState),
      (∀ x ∈ st.thoughtHistory, x.thoughtNumber ≤ x.totalThoughts) →
      ∀ x ∈ (runFrom st es).thoughtHistory, x.thoughtNumber ≤ x.totalThoughts := by
    intro es
    induction es with
    | nil => intro st h; exact h
    | cons e es ih =>
        intro st h
        rw [runFrom_cons]
        refine ih _ ?_
        intro x hx
        rw [processThought_snd_thoughtHistory] at hx
        rcases List.mem_append.1 hx with h1 | h1
        · exact h x h1
        · simp only [List.mem_singleton] at h1
          subst h1
          exact normalizeEntry_le e
  exact key es emptyLedger (by intro x hx; simp [emptyLedger] at hx)

/-- Witness for C7: the entry submitted as `5 of 3` is stored with
`thoughtNumber ≤ totalThoughts`. -/
theorem c7_totals_dominate_witness :
    (normalizeEntry (sampleEntry 5 3 none)).thoughtNumber
      ≤ (normalizeEntry (sampleEntry 5 3 none)).totalThoughts :=
  c7_totals_dominate [sampleEntry 5 3 none]
    (normalizeEntry (sampleEntry 5 3 none)) (by decide)

/-! ## C10 — branch sequences and the label-filtered history -/

/-- C10 counterexample: after one submission labeled `"toString"`, the entry
is in the history (pushed before the throw) but no branch binding exists,
so the branch sequence for that label differs from the history filtered by
it. -/
theorem c10_counterexample :
    branchEntries (runEntries [sampleEntry 1 1 (some "toString")]) "toString" = []
      ∧ (runEntries [sampleEntry 1 1 (some "toString")]).thoughtHistory.filter
          (fun x => decide (x.branchId = some "toString"))
          = [normalizeEntry (sampleEntry 1 1 (some "toString"))]
      ∧ ([] : List ThoughtEntry)
          ≠ [normalizeEntry (sampleEntry 1 1 (some "toString"))] := by
  refine ⟨rfl, rfl, by decide⟩

/-- Preservation: one step of `processThought` keeps each non-empty,
non-prototype label's branch sequence equal to the history entries carrying
that label. -/
theorem branch_filter_step (e : ThoughtEntry) (st : LedgerState)
    (h : ∀ b : String, b ≠ "" → isProtoKey b = false →
      branchEntries st b
        = st.thoughtHistory.filter (fun x => decide (x.branchId = some b))) :
    ∀ b : String, b ≠ "" → isProtoKey b = false →
      branchEntries (processThought e st).2 b
        = (processThought e st).2.thoughtHistory.filter
            (fun x => decide (x.branchId = some b)) := by
  intro b hb hbp
  rw [branchEntries, processThought_snd_thoughtHistory, List.filter_append]
  cases hbe : e.branchId with
  | none =>
      rw [processThought_branches_none e st hbe]
      have hf : List.filter (fun x => decide (x.branchId = some b))
          [normalizeEntry e] = [] := by
        simp [normalizeEntry_branchId, hbe]
      rw [hf, List.append_nil]
      exact h b hb hbp
  | some b0 =>
      by_cases h0 : b0 = ""
      · subst h0
        rw [processThought_branches_empty e st hbe]
        have hf : List.filter (fun x => decide (x.branchId = some b))
            [normalizeEntry e] = [] := by
          simp [normalizeEntry_branchId, hbe, Ne.symm hb]
        rw [hf, List.append_nil]
        exact h b hb hbp
      · cases hl : recordGet st.branches b0 with
        | some l =>
            rw [processThought_branches_existing e st b0 l hbe h0 hl]
            by_cases hbb : b = b0
            · subst hbb
              rw [recordGet_recordSet_self]
              have hf : List.filter (fun x => decide (x.branchId = some b))
                  [normalizeEntry e] = [normalizeEntry e] := by
                simp [normalizeEntry_branchId, hbe]
              rw [hf]
              have hbE : branchEntries st b = l := by
                rw [branchEntries, hl]
                rfl
              have := (h b hb hbp).symm.trans hbE
              simp [this]
            · rw [recordGet_recordSet_ne _ _ _ _ hbb]
              have hf : List.filter (fun x => decide (x.branchId = some b))
                  [normalizeEntry e] = [] := by
                simp [normalizeEntry_branchId, hbe, Ne.symm hbb]
              rw [hf, List.append_nil]
              exact h b hb hbp
        | none =>
            by_cases hpk : isProtoKey b0
            · rw [(processThought_branches_proto e st b0 hbe h0 hl hpk).2]
              have hbb : b ≠ b0 := by
                intro hc
                rw [hc] at hbp
                exact absurd hpk (by simp [hbp])
              have hf : List.filter (fun x => decide (x.branchId = some b))
                  [normalizeEntry e] = [] := by
                simp [normalizeEntry_branchId, hbe, Ne.symm hbb]
              rw [hf, List.append_nil]
              exact h b hb hbp
            · rw [processThought_branches_new e st b0 hbe h0 hl (by simpa using hpk)]
              by_cases hbb : b = b0
              · subst hbb
                rw [recordGet_recordSet_self]
                have hf : List.filter (fun x => decide (x.branchId = some b))
                    [normalizeEntry e] = [normalizeEntry e] := by
                  simp [normalizeEntry_branchId, hbe]
                rw [hf]
                have hbE : branchEntries st b = [] := by
                  rw [branchEntries, hl]
                  rfl
                have := (h b hb hbp).symm.trans hbE
                simp [this]
              · rw [recordGet_recordSet_ne _ _ _ _ hbb]
                have hf : List.filter (fun x => decide (x.branchId = some b))
                    [normalizeEntry e] = [] := by
                  simp [normalizeEntry_branchId, hbe, Ne.symm hbb]
                rw [hf, List.append_nil]
                exact h b hb hbp

/-- C10 amended: in every reachable ledger state, every non-empty label
that does not collide with an `Object.prototype` member has its branch
sequence equal, in order, to the subsequence of the history consisting of
the entries whose stored `branchId` is that label (prototype-colliding
labels are never created even though their entries are stored in history);
and a submission leaves every branch it is not labeled with unchanged. -/
theorem c10_branch_projection (es : List ThoughtEntry) :
    (∀ b : String, b ≠ "" → isProtoKey b = false →
        branchEntries (runEntries es) b
          = (runEntries es).thoughtHistory.filter
              (fun x => decide (x.branchId = some b)))
      ∧ ∀ (e : ThoughtEntry) (st : LedgerState) (b : String),
          e.branchId ≠ some b →
          branchEntries (processThought e st).2 b = branchEntries st b := by
  constructor
  · have key : ∀ (es : List ThoughtEntry) (st : LedgerState),
        (∀ b : String, b ≠ "" → isProtoKey b = false →
          branchEntries st b
            = st.thoughtHistory.filter (fun x => decide (x.branchId = some b))) →
        ∀ b : String, b ≠ "" → isProtoKey b = false →
          branchEntries (runFrom st es) b
            = (runFrom st es).thoughtHistory.filter
                (fun x => decide (x.branchId = some b)) := by
      intro es
      induction es with
      | nil => intro st h; exact h
      | cons e es ih =>
          intro st h
          rw [runFrom_cons]
          exact ih _ (branch_filter_step e st h)
    exact key es emptyLedger
      (by intro b hb hbp; simp [branchEntries, emptyLedger, recordGet, List.find?])
  · intro e st b hne
    cases hbe : e.branchId with
    | none =>
        rw [branchEntries, processThought_branches_none e st hbe]
        rfl
    | some b0 =>
        have hbb : b ≠ b0 := by
          intro hc
          exact hne (by rw [hbe, hc])
        by_cases h0 : b0 = ""
        · subst h0
          rw [branchEntries, processThought_branches_empty e st hbe]
          rfl
        · cases hl : recordGet st.branches b0 with
          | some l =>
              rw [branchEntries, processThought_branches_existing e st b0 l hbe h0 hl,
                recordGet_recordSet_ne _ _ _ _ hbb]
              rfl
          | none =>
              by_cases hpk : isProtoKey b0
              · rw [branchEntries,
                  (processThought_branches_proto e st b0 hbe h0 hl hpk).2]
                rfl
              · rw [branchEntries,
                  processThought_branches_new e st b0 hbe h0 hl (by simpa using hpk),
                  recordGet_recordSet_ne _ _ _ _ hbb]
                rfl

/-- Witness for C10: after a labeled and an unlabeled submission, branch
`"a"` holds exactly the history entries labeled `"a"`. -/
theorem c10_branch_projection_witness :
    branchEntries (runEntries [sampleEntry 1 1 (some "a"), sampleEntry 2 2 none]) "a"
      = [normalizeEntry (sampleEntry 1 1 (some "a"))] := by
  have h := (c10_branch_projection
    [sampleEntry 1 1 (some "a"), sampleEntry 2 2 none]).1 "a" (by decide) (by decide)
  exact h.trans (by rfl)

/-! ## C8 — the branch-label listing -/

theorem map_fst_processThought (e : ThoughtEntry) (st : LedgerState) :
    ((processThought e st).2.branches).map Prod.fst
      = useLabel (st.branches.map Prod.fst) e := by
  cases hbe : e.branchId with
  | none =>
      rw [processThought_branches_none e st hbe]
      simp [useLabel, hbe]
  | some b =>
      by_cases h0 : b = ""
      · subst h0
        rw [processThought_branches_empty e st hbe]
        simp [useLabel, hbe]
      · cases hl : recordGet st.branches b with
        | some l =>
            have hmem : b ∈ st.branches.map Prod.fst :=
              mem_map_fst_of_recordGet _ _ _ hl
            rw [processThought_branches_existing e st b l hbe h0 hl,
              map_fst_recordSet_mem _ _ _ hmem]
            simp [useLabel, hbe, hmem]
        | none =>
            have hnm : b ∉ st.branches.map Prod.fst :=
              (recordGet_eq_none_iff _ _).mp hl
            by_cases hpk : isProtoKey b
            · rw [(processThought_branches_proto e st b hbe h0 hl hpk).2]
              simp [useLabel, hbe, hpk]
            · have hpk' : isProtoKey b = false := by simpa using hpk
              rw [processThought_branches_new e st b hbe h0 hl hpk',
                map_fst_recordSet_not_mem _ _ _ hnm]
              simp [useLabel, hbe, h0, hpk', hnm]

theorem map_fst_runFrom (es : List ThoughtEntry) :
    ∀ st : LedgerState,
      ((runFrom st es).branches).map Prod.fst
        = es.foldl useLabel (st.branches.map Prod.fst) := by
  induction es with
  | nil => intro st; rfl
  | cons e es ih =>
      intro st
      rw [runFrom_cons, List.foldl_cons, ← map_fst_processThought]
      exact ih _

theorem nodup_useLabel (acc : List String) (e : ThoughtEntry)
    (h : acc.Nodup) : (useLabel acc e).Nodup := by
  unfold useLabel
  cases e.branchId with
  | none => exact h
  | some b =>
      change (if b ≠ "" ∧ isProtoKey b = false ∧ b ∉ acc then acc ++ [b]
        else acc).Nodup
      by_cases hc : b ≠ "" ∧ isProtoKey b = false ∧ b ∉ acc
      · rw [if_pos hc]
        simp [List.nodup_append, h, hc.2.2]
      · rw [if_neg hc]
        exact h

theorem nodup_foldl_useLabel (es : List ThoughtEntry) :
    ∀ acc : List String, acc.Nodup → (es.foldl useLabel acc).Nodup := by
  induction es with
  | nil => intro acc h; exact h
  | cons e es ih =>
      intro acc h
      rw [List.foldl_cons]
      exact ih _ (nodup_useLabel acc e h)

theorem mem_useLabel (acc : List String) (e : ThoughtEntry) (b : String) :
    b ∈ useLabel acc e
      ↔ b ∈ acc ∨ (b ≠ "" ∧ isProtoKey b = false ∧ e.branchId = some b) := by
  unfold useLabel
  cases hbe : e.branchId with
  | none => simp
  | some b0 =>
      change (b ∈ if b0 ≠ "" ∧ isProtoKey b0 = false ∧ b0 ∉ acc then acc ++ [b0]
        else acc) ↔ _
      by_cases hc : b0 ≠ "" ∧ isProtoKey b0 = false ∧ b0 ∉ acc
      · rw [if_pos hc]
        simp only [List.mem_append, List.mem_singleton, Option.some.injEq]
        constructor
        · rintro (h | h)
          · exact Or.inl h
          · exact Or.inr ⟨h ▸ hc.1, h ▸ hc.2.1, h.symm⟩
        · rintro (h | ⟨hne, hpk, hbb⟩)
          · exact Or.inl h
          · exact Or.inr hbb.symm
      · rw [if_neg hc]
        simp only [Option.some.injEq]
        constructor
        · exact Or.inl
        · rintro (h | ⟨hne, hpk, hbb⟩)
          · exact h
          · subst hbb
            rcases not_and_or.mp hc with h' | h'
            · exact absurd hne (by simpa using h')
            · rcases not_and_or.mp h' with h'' | h''
              · exact absurd hpk h''
              · simpa using h''

theorem mem_foldl_useLabel (es : List ThoughtEntry) :
    ∀ (acc : List String) (b : String),
      b ∈ es.foldl useLabel acc
        ↔ b ∈ acc
          ∨ (b ≠ "" ∧ isProtoKey b = false ∧ ∃ x ∈ es, x.branchId = some b) := by
  induction es with
  | nil => intro acc b; simp
  | cons e es ih =>
      intro acc b
      rw [List.foldl_cons, ih, mem_useLabel]
      simp only [List.mem_cons]
      constructor
      · rintro ((h | ⟨hne, hpk, hb⟩) | ⟨hne, hpk, x, hx, hb⟩)
        · exact Or.inl h
        · exact Or.inr ⟨hne, hpk, e, Or.inl rfl, hb⟩
        · exact Or.inr ⟨hne, hpk, x, Or.inr hx, hb⟩
      · rintro (h | ⟨hne, hpk, x, hx | hx, hb⟩)
        · exact Or.inl (Or.inl h)
        · exact Or.inl (Or.inr ⟨hne, hpk, hx ▸ hb⟩)
        · exact Or.inr ⟨hne, hpk, x, hx, hb⟩

/-- C8 counterexample: with the numeric-string labels `"2"` then `"1"`,
`Object.keys` lists array-index keys in ascending numeric order, so the
second summary reports `["1", "2"]` although the order of first appearance
is `["2", "1"]` — the claim's ordering statement fails on the code. -/
theorem c8_counterexample :
    ((runAll [sampleEntry 1 1 (some "2"), sampleEntry 2 2 (some "1")]
        emptyLedger).1.map (fun r => r.map (·.branches)))
        = [Except.ok ["2"], Except.ok ["1", "2"]]
      ∧ firstUseLabels
          [sampleEntry 1 1 (some "2"), sampleEntry 2 2 (some "1")] = ["2", "1"]
      ∧ (["1", "2"] : List String) ≠ ["2", "1"] := by
  refine ⟨rfl, rfl, by decide⟩

/-- C8 amended: every returned summary lists exactly the branch labels ever
created so far (each exactly once — repeated labels create one entry), the
listing is unaffected by submissions carrying no `branchId`, and its order
is the ECMAScript object key order: array-index labels (canonical decimal
strings of a value below `2^32 - 1`) first in ascending numeric order, then
the remaining labels in order of first creation.  A label is created
exactly when some submission carried it as a non-empty `branchId` that does
not collide with an `Object.prototype` member (colliding labels error
before creation and are never listed).  The a-then-b-then-unlabeled example
still yields exactly `["a", "b"]` after the third call. -/
theorem c8_branch_labels (es : List ThoughtEntry) (e : ThoughtEntry) :
    (∀ s, (processThought e (runEntries es)).1 = Except.ok s →
        s.branches
          = sortByVal ((firstUseLabels (es ++ [e])).filter isArrayIndexKey)
            ++ (firstUseLabels (es ++ [e])).filter (fun k => !(isArrayIndexKey k)))
      ∧ (firstUseLabels (es ++ [e])).Nodup
      ∧ (∀ b : String, b ∈ firstUseLabels (es ++ [e])
            ↔ b ≠ "" ∧ isProtoKey b = false ∧ ∃ x ∈ es ++ [e], x.branchId = some b)
      ∧ (e.branchId = none → firstUseLabels (es ++ [e]) = firstUseLabels es)
      ∧ ((runAll [sampleEntry 1 1 (some "a"), sampleEntry 2 2 (some "b"),
            sampleEntry 3 3 none] emptyLedger).1.map (fun r => r.map (·.branches)))
          = [Except.ok ["a"], Except.ok ["a", "b"], Except.ok ["a", "b"]] := by
  refine ⟨fun s hs => ?_, ?_, ?_, fun hb => ?_, rfl⟩
  · rw [(processThought_ok_spec e (runEntries es) s hs).2.2.2.1]
    have hstep : (processThought e (runEntries es)).2 = runEntries (es ++ [e]) :=
      (runFrom_append_singleton emptyLedger es e).symm
    rw [hstep]
    have hkeys : ((runEntries (es ++ [e])).branches).map Prod.fst
        = firstUseLabels (es ++ [e]) := by
      rw [runEntries, map_fst_runFrom]
      rfl
    rw [objectKeys, hkeys]
  · exact nodup_foldl_useLabel (es ++ [e]) [] List.nodup_nil
  · intro b
    rw [firstUseLabels, mem_foldl_useLabel]
    simp
  · rw [firstUseLabels, firstUseLabels, List.foldl_append, List.foldl_cons,
      List.foldl_nil]
    unfold useLabel
    rw [hb]

/-- Witness for C8 after the labeled runs `"a"`, `"b"`: the third, unlabeled
submission returns a summary listing `["a", "b"]` in the stated key order
and leaves the first-creation label list unchanged. -/
theorem c8_branch_labels_witness :
    (⟨3, 3, true, ["a", "b"], 3⟩ : ProgressSummary).branches
        = sortByVal ((firstUseLabels [sampleEntry 1 1 (some "a"),
              sampleEntry 2 2 (some "b"), sampleEntry 3 3 none]).filter
              isArrayIndexKey)
          ++ (firstUseLabels [sampleEntry 1 1 (some "a"),
              sampleEntry 2 2 (some "b"), sampleEntry 3 3 none]).filter
              (fun k => !(isArrayIndexKey k))
      ∧ firstUseLabels [sampleEntry 1 1 (some "a"), sampleEntry 2 2 (some "b"),
            sampleEntry 3 3 none]
          = firstUseLabels [sampleEntry 1 1 (some "a"),
              sampleEntry 2 2 (some "b")] := by
  have h := c8_branch_labels
    [sampleEntry 1 1 (some "a"), sampleEntry 2 2 (some "b")]
    (sampleEntry 3 3 none)
  exact ⟨h.1 ⟨3, 3, true, ["a", "b"], 3⟩ (by rfl), h.2.2.2.1 rfl⟩
